import Mathlib

/-!
Verification of the hammertrack/tracker event-correlation pipeline.

This file gives a shallow embedding of the tracker's core data structures
and operations, translated from the Go sources:

* `MessageRing` and its operations (`internal/message/message.go`),
* the per-channel correlator worker loop (`StartTracker`),
* the batching storage sink (`Start`/`enqueue`/`flush`, `Save`),
* the heuristics analyzer (`internal/heuristics`),
* the CLEARCHAT handlers of the IRC source adapters,
* the environment-variable conversion of `internal/config/config.go`.

Machine integers are modelled as `Nat`/`Int`, Go strings as `String` or
`List Char`, pointers into the per-worker heap of chat messages as `Nat`
indices into an explicit heap list, and fallible/panicking code as
`Option`-returning functions.
-/

/-! ## Ring history: `MessageRing` (internal/message/message.go)

The Go ring is a doubly-linked circular list of nodes created by `New`,
where node `i`'s `next` pointer leads to node `i+1 mod n` and `prev` to
`i-1 mod n` (`n` = number of physical nodes).  We model the ring state as
the vector of node values indexed along the `next` links as laid out by
`New`, together with the index of the node the "last" handle points to.
`New size d` allocates one node and then `size - 1` more, so the physical
node count is `max size 1`; the `size` field stored in the nodes is kept
separately (it is used by `All` for the length of its result). -/

structure MessageRing (V : Type) where
  /-- number of physical nodes in the circle -/
  n : Nat
  /-- value held by node `i` (indices `≥ n` are irrelevant) -/
  vals : Nat → V
  /-- index of the node the current handle (the receiver `last`) points to -/
  last : Nat
  /-- the `size` field stored in every node by `newRing` -/
  size : Nat

/-- `New(size, def)`: allocates `max size 1` nodes, all holding `def`,
returns the handle to the first node. -/
def MessageRing.New (size : Nat) (d : V) : MessageRing V :=
  { n := max size 1, vals := fun _ => d, last := 0, size := size }

/-- `Append(val)`: writes `val` into `last.next` and returns that node as
the new handle. -/
def MessageRing.Append (r : MessageRing V) (v : V) : MessageRing V :=
  let nxt := (r.last + 1) % r.n
  { r with vals := fun i => if i = nxt then v else r.vals i, last := nxt }

/-- Node indices in the order `Do` visits them: `last`, then `prev` links,
until the walk returns to `last` — i.e. `last, last-1, …` modulo `n`. -/
def MessageRing.doIndices (r : MessageRing V) : List Nat :=
  (List.range r.n).map (fun j => (r.last + (r.n - j)) % r.n)

/-- The node values in `Do` visiting order (most recent first). -/
def MessageRing.doList (r : MessageRing V) : List V :=
  r.doIndices.map r.vals

/-- `Find(fn)`: first value matching `fn` in `Do` order, as an `Option`
(Go returns the zero value of `V` when there is no match; for the
pointer-valued instantiations used by the tracker the zero value is `nil`,
modelled by `none`). -/
def MessageRing.Find (r : MessageRing V) (fn : V → Bool) : Option V :=
  r.doList.find? fn

/-- `Filter(fn)`: all values matching `fn`, in `Do` order. -/
def MessageRing.Filter (r : MessageRing V) (fn : V → Bool) : List V :=
  r.doList.filter fn

/-- `All()`: snapshot of all values in `Do` order.  In Go, `All` writes the
visited values into a slice of length `size`; for every ring reachable
through `New` with `size ≥ 1` the physical node count equals `size`, and
`All` returns exactly the `Do`-ordered values (for `size ≤ 0` the Go code
panics with an index out of range; the claims about `All` assume
`size ≥ 1`). -/
def MessageRing.All (r : MessageRing V) : List V :=
  r.doList

/-- Appending a list of values left to right, keeping the returned handle
each time (`history = history.Append(v)`). -/
def MessageRing.appendAll (r : MessageRing V) (vs : List V) : MessageRing V :=
  vs.foldl MessageRing.Append r

theorem MessageRing.doIndices_length (r : MessageRing V) : r.doIndices.length = r.n := by
  simp [MessageRing.doIndices]

theorem MessageRing.doList_length (r : MessageRing V) : r.doList.length = r.n := by
  simp [MessageRing.doList, MessageRing.doIndices]

theorem MessageRing.n_new (size : Nat) (d : V) (h : 1 ≤ size) :
    (MessageRing.New size d).n = size := by
  simp [MessageRing.New, Nat.max_eq_left h]

theorem MessageRing.n_append (r : MessageRing V) (v : V) : (r.Append v).n = r.n := rfl

theorem MessageRing.last_append (r : MessageRing V) (v : V) :
    (r.Append v).last = (r.last + 1) % r.n := rfl

theorem MessageRing.last_append_lt (r : MessageRing V) (v : V) (h : 0 < r.n) :
    (r.Append v).last < r.n := Nat.mod_lt _ h

theorem MessageRing.doList_new (size : Nat) (d : V) :
    (MessageRing.New size d).doList = List.replicate (max size 1) d := by
  apply List.ext_getElem
  · simp [MessageRing.doList_length, MessageRing.New]
  · intro i h1 h2
    simp [MessageRing.doList, MessageRing.doIndices, MessageRing.New]

/-- Index arithmetic: the node visited at step `i + 1` after an `Append` is
the node visited at step `i` before it. -/
theorem ringIdxShift (n last i : Nat) (hi : i + 1 < n) :
    ((last + 1) % n + (n - (i + 1))) % n = (last + (n - i)) % n := by
  rw [Nat.mod_add_mod]
  congr 1
  omega

/-- The node visited at step `i + 1` after an `Append` is not the node the
`Append` overwrote. -/
theorem ringIdxNe (n last i : Nat) (hi : i + 1 < n) :
    (last + (n - i)) % n ≠ (last + 1) % n := by
  intro h
  have hmod : (n - i) % n = 1 % n := Nat.ModEq.add_left_cancel' last h
  have h1 : 1 % n = 1 := Nat.mod_eq_of_lt (by omega)
  rcases Nat.eq_zero_or_pos i with hi0 | hip
  · subst hi0
    rw [Nat.sub_zero, Nat.mod_self] at hmod
    omega
  · rw [Nat.mod_eq_of_lt (by omega)] at hmod
    omega

/-- Appending rotates the snapshot: the new value comes first and the
oldest value drops off the end. -/
theorem MessageRing.doList_append (r : MessageRing V) (v : V)
    (hn : 0 < r.n) :
    (r.Append v).doList = v :: r.doList.dropLast := by
  apply List.ext_getElem
  · simp only [MessageRing.doList_length, MessageRing.n_append, List.length_cons,
      List.length_dropLast, MessageRing.doList_length]
    omega
  · intro i h1 h2
    rw [MessageRing.doList_length, MessageRing.n_append] at h1
    match i with
    | 0 =>
      have hlast : (r.last + 1) % r.n < r.n := Nat.mod_lt _ hn
      simp only [MessageRing.doList, MessageRing.doIndices, MessageRing.Append,
        List.getElem_map, List.getElem_range, List.getElem_cons_zero]
      rw [Nat.sub_zero, Nat.add_mod_right, Nat.mod_eq_of_lt hlast]
      simp
    | i + 1 =>
      have hd : i < r.doList.dropLast.length := by
        simp only [List.length_dropLast, MessageRing.doList_length]; omega
      simp only [MessageRing.doList, MessageRing.doIndices, MessageRing.Append,
        List.getElem_map, List.getElem_range, List.getElem_cons_succ]
      rw [List.getElem_dropLast]
      simp only [List.getElem_map, List.getElem_range]
      rw [ringIdxShift r.n r.last i h1]
      rw [if_neg (ringIdxNe r.n r.last i h1)]

/-- Well-formedness of a ring state: the physical node count is `N` and the
handle is in range. -/
def MessageRing.WF (r : MessageRing V) (N : Nat) : Prop :=
  r.n = N ∧ r.last < N

theorem MessageRing.wf_new (size : Nat) (d : V) (h : 1 ≤ size) :
    (MessageRing.New size d).WF size :=
  ⟨MessageRing.n_new size d h, by simp [MessageRing.New]; omega⟩

theorem MessageRing.wf_append (r : MessageRing V) (v : V) (hN : 0 < N)
    (h : r.WF N) : (r.Append v).WF N := by
  obtain ⟨h1, h2⟩ := h
  exact ⟨h1, by rw [MessageRing.last_append, h1]; exact Nat.mod_lt _ hN⟩

theorem MessageRing.wf_appendAll (vs : List V) (r : MessageRing V) (hN : 0 < N)
    (h : r.WF N) : (r.appendAll vs).WF N := by
  induction vs generalizing r with
  | nil => exact h
  | cons v vs ih => exact ih _ (r.wf_append v hN h)

theorem dropLastReplicate (m : Nat) (d : V) :
    (List.replicate m d).dropLast = List.replicate (m - 1) d := by
  rw [List.dropLast_eq_take, List.length_replicate, List.take_replicate]
  congr 1
  omega

/-- Snapshot after any number of appends on a fresh ring: the last
`min k N` appended values, newest first, padded at the end with the
default. -/
theorem MessageRing.doList_appendAll (N : Nat) (hN : 1 ≤ N) (d : V) (vs : List V) :
    ((MessageRing.New N d).appendAll vs).doList =
      vs.reverse.take N ++ List.replicate (N - min vs.length N) d := by
  induction vs using List.reverseRecOn with
  | nil =>
    have h1 : max N 1 = N := Nat.max_eq_left hN
    have h2 : N - min 0 N = N := by omega
    simp [MessageRing.appendAll, MessageRing.doList_new, h1, h2]
  | append_singleton vs v ih =>
    have hstep : (MessageRing.New N d).appendAll (vs ++ [v]) =
        ((MessageRing.New N d).appendAll vs).Append v := by
      simp [MessageRing.appendAll]
    obtain ⟨hn, hlast⟩ :=
      MessageRing.wf_appendAll vs (MessageRing.New N d) (by omega)
        (MessageRing.wf_new N d hN)
    rw [hstep, MessageRing.doList_append _ _ (by omega), ih]
    have hrev : (vs ++ [v]).reverse = v :: vs.reverse := by simp
    obtain ⟨M, rfl⟩ : ∃ M, N = M + 1 := ⟨N - 1, by omega⟩
    rw [hrev, List.take_succ_cons]
    simp only [List.length_append, List.length_singleton]
    rw [List.cons_append]
    congr 1
    have hk : vs.reverse.length = vs.length := List.length_reverse vs
    rcases Nat.lt_or_ge vs.length (M + 1) with hlt | hge
    · -- still filling the ring: k < N
      have htk : vs.reverse.take (M + 1) = vs.reverse :=
        List.take_of_length_le (by omega)
      have htm : vs.reverse.take M = vs.reverse :=
        List.take_of_length_le (by omega)
      have hmin1 : min vs.length (M + 1) = vs.length := by omega
      have hmin2 : min (vs.length + 1) (M + 1) = vs.length + 1 := by omega
      have hne : List.replicate (M + 1 - vs.length) d ≠ [] :=
        List.length_pos.mp (by rw [List.length_replicate]; omega)
      rw [htk, htm, hmin1, hmin2, List.dropLast_append_of_ne_nil _ hne,
        dropLastReplicate]
      have harith : M + 1 - vs.length - 1 = M + 1 - (vs.length + 1) := by omega
      rw [harith]
    · -- the ring already rotated: k ≥ N
      have hmin1 : min vs.length (M + 1) = M + 1 := by omega
      have hmin2 : min (vs.length + 1) (M + 1) = M + 1 := by omega
      have hlen : (vs.reverse.take (M + 1)).length = M + 1 := by
        rw [List.length_take]; omega
      rw [hmin1, hmin2, Nat.sub_self, List.replicate_zero, List.append_nil,
        List.append_nil, List.dropLast_eq_take, hlen, List.take_take]
      congr 1
      omega

/-- C2 (Ring rotation): for every capacity `N ≥ 1`, default `d`, and
sequence of values `v₁ … v_k`, after `k` Appends on a ring created by
`New(N, d)`, `All()` returns exactly `N` elements in most-recent-first
order: the last `min(k, N)` appended values newest first, padded at the
end with copies of `d`. -/
theorem C2_ring_rotation (V : Type) (N : Nat) (hN : 1 ≤ N) (d : V) (vs : List V) :
    ((MessageRing.New N d).appendAll vs).All =
      vs.reverse.take N ++ List.replicate (N - min vs.length N) d ∧
    ((MessageRing.New N d).appendAll vs).All.length = N := by
  refine ⟨MessageRing.doList_appendAll N hN d vs, ?_⟩
  rw [MessageRing.All, MessageRing.doList_length]
  exact (MessageRing.wf_appendAll vs _ (by omega) (MessageRing.wf_new N d hN)).1

/-- Witness for C2, the spec's scenario S1: `New(5, 0)` then
`Append(10,20,30,40,50)` gives `All() = [50,40,30,20,10]`; a further
`Append(60)` gives `[60,50,40,30,20]`. -/
theorem C2_ring_rotation_witness :
    (1 ≤ 5 ∧
      ((MessageRing.New 5 (0 : Nat)).appendAll [10, 20, 30, 40, 50]).All =
        [50, 40, 30, 20, 10]) ∧
    ((MessageRing.New 5 (0 : Nat)).appendAll [10, 20, 30, 40, 50, 60]).All =
      [60, 50, 40, 30, 20] :=
  ⟨⟨by decide,
    ((C2_ring_rotation Nat 5 (by decide) 0 [10, 20, 30, 40, 50]).1).trans (by decide)⟩,
    ((C2_ring_rotation Nat 5 (by decide) 0 [10, 20, 30, 40, 50, 60]).1).trans (by decide)⟩

/-! ## Chat messages and the per-channel correlator worker
(`StartTracker` in the tracker's bot package, using `message.PrivateMessage`
and `message.Message` from internal/message/message.go)

The worker's ring holds Go pointers to `PrivateMessage` values; the filter
and find predicates used on ban/timeout/deletion events mutate the pointed-to
message (`privmsg.Stored = true`) while the query runs.  We model the
pointers as indices into an explicit heap (a list of `PrivateMessage`
values owned by the worker), the ring as `MessageRing Nat` over those
indices, and the mutating predicates as heap-threading recursions over the
ring's `Do`-ordered values. -/

/-- `message.PrivateMessage`: one chat utterance.  `at` is the timestamp
(unix nanoseconds). -/
structure PrivateMessage where
  ID : String
  Username : String
  Body : String
  At : Int
  Stored : Bool
deriving DecidableEq

/-- `noopPrivmsg`, the default sentinel message the worker preallocates the
ring with. -/
def noopPrivmsg : PrivateMessage :=
  { ID := "", Username := "%noop%", Body := "", At := 0, Stored := false }

/-- `message.MaxHistory`: capacity of each per-channel history ring. -/
def MaxHistory : Nat := 150

/-- The events a correlator worker can receive on its inbox, as constructed
by the IRC adapter handlers (`handlePrivmsg` always attaches exactly one
freshly allocated message; `handleClearChat`/`handleClear` construct
ban/timeout/deletion messages with the fields below). -/
inductive WorkerEvent where
  | privmsg (m : PrivateMessage)
  | ban (username : String) (time : Int)
  | timeout (username : String) (duration : Int) (time : Int)
  | deletion (targetMsgId : String) (username : String) (time : Int)

/-- One `b.sto.Save(msg)` call observed at the storage boundary: the
event's kind and username together with the pointers collected into
`msg.LastMessages` by the correlator. -/
structure SaveCall where
  kind : String
  username : String
  attached : List Nat
deriving DecidableEq

/-- State owned by one correlator worker: its message heap (allocation
arena for the pointed-to `PrivateMessage` values), its ring of pointers,
and the sequence of `Save` calls it has issued. -/
structure WorkerState where
  heap : List PrivateMessage
  ring : MessageRing Nat
  out : List SaveCall

/-- `history.Filter(func(privmsg) { if privmsg.Username == msg.Username &&
!privmsg.Stored { privmsg.Stored = true; return true }; return false })`:
the mutating filter of the ban/timeout branch, walking the ring's values
(pointers) in `Do` order while updating the heap. -/
def filterMark (heap : List PrivateMessage) (username : String) :
    List Nat → List Nat × List PrivateMessage
  | [] => ([], heap)
  | p :: ps =>
    let m := heap.getD p noopPrivmsg
    if m.Username = username ∧ m.Stored = false then
      let heap' := heap.set p { m with Stored := true }
      let (res, heap'') := filterMark heap' username ps
      (p :: res, heap'')
    else
      filterMark heap username ps

/-- `history.Find(func(privmsg) { if privmsg.ID == msg.TargetMsgID &&
!privmsg.Stored { privmsg.Stored = true; return true }; return false })`:
the mutating find of the deletion branch (stops at the first match). -/
def findMark (heap : List PrivateMessage) (targetMsgId : String) :
    List Nat → Option Nat × List PrivateMessage
  | [] => (none, heap)
  | p :: ps =>
    let m := heap.getD p noopPrivmsg
    if m.ID = targetMsgId ∧ m.Stored = false then
      (some p, heap.set p { m with Stored := true })
    else
      findMark heap targetMsgId ps

/-- One iteration of the worker loop of `StartTracker`: the switch on the
received message's type. -/
def trackerStep (s : WorkerState) : WorkerEvent → WorkerState
  | .privmsg m =>
    -- history = history.Append(msg.LastMessages[0]); the handler allocated
    -- the message, modelled by extending the worker-owned heap
    { s with heap := s.heap ++ [m], ring := s.ring.Append s.heap.length }
  | .ban username _ =>
    let (res, heap') := filterMark s.heap username s.ring.doList
    { s with heap := heap', out := s.out ++ [⟨"ban", username, res⟩] }
  | .timeout username _ _ =>
    -- identical to the ban branch (Go fallthrough)
    let (res, heap') := filterMark s.heap username s.ring.doList
    { s with heap := heap', out := s.out ++ [⟨"timeout", username, res⟩] }
  | .deletion targetMsgId username _ =>
    let (res, heap') := findMark s.heap targetMsgId s.ring.doList
    match res with
    | some p =>
      { s with heap := heap', out := s.out ++ [⟨"deletion", username, [p]⟩] }
    | none => { s with heap := heap' }

/-- The worker's initial state: a heap holding only the preallocated
`noopPrivmsg` and a fresh ring of `MaxHistory` slots all pointing at it
(`history := message.New(message.MaxHistory, noopPrivmsg)`). -/
def initWorkerState : WorkerState :=
  { heap := [noopPrivmsg], ring := MessageRing.New MaxHistory 0, out := [] }

/-- Processing a whole inbox sequence. -/
def runTracker (evs : List WorkerEvent) : WorkerState :=
  evs.foldl trackerStep initWorkerState

theorem getDSetSelf (l : List PrivateMessage) (p : Nat) (a : PrivateMessage)
    (h : p < l.length) : (l.set p a).getD p noopPrivmsg = a := by
  simp [List.getD_eq_getElem?_getD, List.getElem?_set_self h]

theorem getDSetNe (l : List PrivateMessage) (p q : Nat) (a : PrivateMessage)
    (h : p ≠ q) : (l.set p a).getD q noopPrivmsg = l.getD q noopPrivmsg := by
  simp [List.getD_eq_getElem?_getD, List.getElem?_set_ne h]

/-- `filterMark` does not change the heap's length. -/
theorem filterMark_length (u : String) (ps : List Nat) (heap : List PrivateMessage) :
    (filterMark heap u ps).2.length = heap.length := by
  induction ps generalizing heap with
  | nil => simp [filterMark]
  | cons p ps ih =>
    rw [filterMark]
    split
    · have := ih (heap.set p { heap.getD p noopPrivmsg with Stored := true })
      simp only []
      rw [show (filterMark (heap.set p { heap.getD p noopPrivmsg with Stored := true }) u ps) =
        ((filterMark (heap.set p { heap.getD p noopPrivmsg with Stored := true }) u ps).1,
         (filterMark (heap.set p { heap.getD p noopPrivmsg with Stored := true }) u ps).2) from rfl]
      simpa using this
    · exact ih heap

theorem filterMark_cons_pos (heap : List PrivateMessage) (u : String) (p : Nat)
    (ps : List Nat)
    (h : (heap.getD p noopPrivmsg).Username = u ∧
         (heap.getD p noopPrivmsg).Stored = false) :
    filterMark heap u (p :: ps) =
      ((p :: (filterMark (heap.set p { heap.getD p noopPrivmsg with Stored := true }) u ps).1),
       (filterMark (heap.set p { heap.getD p noopPrivmsg with Stored := true }) u ps).2) := by
  rw [filterMark]
  simp only [if_pos h]

theorem filterMark_cons_neg (heap : List PrivateMessage) (u : String) (p : Nat)
    (ps : List Nat)
    (h : ¬((heap.getD p noopPrivmsg).Username = u ∧
           (heap.getD p noopPrivmsg).Stored = false)) :
    filterMark heap u (p :: ps) = filterMark heap u ps := by
  rw [filterMark]
  simp only [if_neg h]

/-- `filterMark` never changes a message's username and never clears a
`Stored` flag (the predicate's only mutation is `privmsg.Stored = true`). -/
theorem filterMark_mono (u : String) (ps : List Nat) (heap : List PrivateMessage)
    (q : Nat) :
    ((filterMark heap u ps).2.getD q noopPrivmsg).Username =
      (heap.getD q noopPrivmsg).Username ∧
    ((heap.getD q noopPrivmsg).Stored = true →
      ((filterMark heap u ps).2.getD q noopPrivmsg).Stored = true) := by
  induction ps generalizing heap with
  | nil => simp [filterMark]
  | cons p ps ih =>
    by_cases h : (heap.getD p noopPrivmsg).Username = u ∧
        (heap.getD p noopPrivmsg).Stored = false
    · rw [filterMark_cons_pos heap u p ps h]
      simp only []
      rcases eq_or_ne p q with rfl | hpq
      · -- the marked pointer: username preserved, stored becomes true
        by_cases hp : p < heap.length
        · have hsel := getDSetSelf heap p { heap.getD p noopPrivmsg with Stored := true } hp
          obtain ⟨ih1, ih2⟩ := ih (heap.set p { heap.getD p noopPrivmsg with Stored := true })
          constructor
          · rw [ih1, hsel]
          · intro _
            apply ih2
            rw [hsel]
        · -- out-of-range pointer: the set is a no-op
          have hnoop : heap.set p { heap.getD p noopPrivmsg with Stored := true } = heap := by
            apply List.set_eq_of_length_le
            omega
          rw [hnoop]
          exact ⟨(ih heap).1, (ih heap).2⟩
      · have hne := getDSetNe heap p q { heap.getD p noopPrivmsg with Stored := true } hpq
        obtain ⟨ih1, ih2⟩ := ih (heap.set p { heap.getD p noopPrivmsg with Stored := true })
        constructor
        · rw [ih1, hne]
        · intro hq
          apply ih2
          rw [hne]
          exact hq
    · rw [filterMark_cons_neg heap u p ps h]
      exact ih heap

/-- After a `filterMark` pass for user `u`, every in-range pointer it
visited whose message belongs to `u` is marked `Stored`. -/
theorem filterMark_marks (u : String) (ps : List Nat) (heap : List PrivateMessage)
    (hb : ∀ p ∈ ps, p < heap.length) :
    ∀ p ∈ ps,
      ((filterMark heap u ps).2.getD p noopPrivmsg).Username = u →
      ((filterMark heap u ps).2.getD p noopPrivmsg).Stored = true := by
  induction ps generalizing heap with
  | nil => intro p hp; simp at hp
  | cons p0 ps ih =>
    intro p hp
    by_cases h : (heap.getD p0 noopPrivmsg).Username = u ∧
        (heap.getD p0 noopPrivmsg).Stored = false
    · rw [filterMark_cons_pos heap u p0 ps h]
      simp only []
      set heap1 := heap.set p0 { heap.getD p0 noopPrivmsg with Stored := true } with hheap1
      have hb1 : ∀ q ∈ ps, q < heap1.length := by
        intro q hq
        rw [hheap1, List.length_set]
        exact hb q (List.mem_cons_of_mem _ hq)
      rcases List.mem_cons.mp hp with rfl | hmem
      · -- the head pointer was just marked; marking is preserved downstream
        intro _
        have hplen : p < heap.length := hb p (List.mem_cons_self _ _)
        have hsel := getDSetSelf heap p { heap.getD p noopPrivmsg with Stored := true } hplen
        apply (filterMark_mono u ps heap1 p).2
        rw [hheap1, hsel]
      · exact ih heap1 hb1 p hmem
    · rw [filterMark_cons_neg heap u p0 ps h]
      rcases List.mem_cons.mp hp with rfl | hmem
      · -- head not marked: either it is not u's message (then the
        -- hypothesis is refuted via username preservation) or it is
        -- already stored (then monotonicity keeps it stored)
        intro hu
        rcases not_and_or.mp h with hne | hst
        · exfalso
          exact hne (by rw [(filterMark_mono u ps heap p).1] at hu; exact hu)
        · apply (filterMark_mono u ps heap p).2
          revert hst
          cases (heap.getD p noopPrivmsg).Stored <;> simp
      · exact ih heap (fun q hq => hb q (List.mem_cons_of_mem _ hq)) p hmem

/-- If no visited in-range pointer matches (`Username = u` with `Stored`
still false), `filterMark` collects nothing and leaves the heap unchanged. -/
theorem filterMark_empty (u : String) (ps : List Nat) (heap : List PrivateMessage)
    (h : ∀ p ∈ ps,
      ¬((heap.getD p noopPrivmsg).Username = u ∧
        (heap.getD p noopPrivmsg).Stored = false)) :
    filterMark heap u ps = ([], heap) := by
  induction ps with
  | nil => rfl
  | cons p ps ih =>
    rw [filterMark_cons_neg heap u p ps (h p (List.mem_cons_self _ _))]
    exact ih (fun q hq => h q (List.mem_cons_of_mem _ hq))

theorem findMark_length (t : String) (ps : List Nat) (heap : List PrivateMessage) :
    (findMark heap t ps).2.length = heap.length := by
  induction ps generalizing heap with
  | nil => simp [findMark]
  | cons p ps ih =>
    rw [findMark]
    split
    · simp
    · exact ih heap

/-- Pointer validity invariant of a worker state: every pointer reachable
through the ring dereferences into the worker's heap (Go guarantees this
because the ring only ever holds addresses of live messages). -/
def WInv (s : WorkerState) : Prop :=
  0 < s.ring.n ∧ ∀ p ∈ s.ring.doList, p < s.heap.length

theorem wInv_init : WInv initWorkerState := by
  constructor
  · simp [initWorkerState, MessageRing.New, MaxHistory]
  · intro p hp
    rw [initWorkerState, MessageRing.doList_new] at hp
    have := List.eq_of_mem_replicate hp
    simp [initWorkerState, this]

theorem wInv_step (s : WorkerState) (e : WorkerEvent) (h : WInv s) :
    WInv (trackerStep s e) := by
  obtain ⟨hn, hb⟩ := h
  cases e with
  | privmsg m =>
    refine ⟨hn, ?_⟩
    intro p hp
    simp only [trackerStep] at hp ⊢
    rw [MessageRing.doList_append _ _ hn] at hp
    rcases List.mem_cons.mp hp with rfl | hmem
    · simp
    · have : p ∈ s.ring.doList := (List.dropLast_sublist _).mem hmem
      have := hb p this
      simp
      omega
  | ban username time =>
    refine ⟨hn, ?_⟩
    intro p hp
    simp only [trackerStep] at hp ⊢
    rw [filterMark_length]
    exact hb p hp
  | timeout username duration time =>
    refine ⟨hn, ?_⟩
    intro p hp
    simp only [trackerStep] at hp ⊢
    rw [filterMark_length]
    exact hb p hp
  | deletion targetMsgId username time =>
    simp only [trackerStep]
    split
    · refine ⟨hn, ?_⟩
      intro p hp
      simp only [] at hp ⊢
      rw [findMark_length]
      exact hb p hp
    · refine ⟨hn, ?_⟩
      intro p hp
      simp only [] at hp ⊢
      rw [findMark_length]
      exact hb p hp

theorem wInv_fold (evs : List WorkerEvent) (s : WorkerState) (h : WInv s) :
    WInv (evs.foldl trackerStep s) := by
  induction evs generalizing s with
  | nil => exact h
  | cons e evs ih => exact ih _ (wInv_step s e h)

/-- Processing chat events issues no `Save` calls and leaves previous
output untouched. -/
theorem out_fold_privmsg (chats : List PrivateMessage) (s : WorkerState) :
    ((chats.map WorkerEvent.privmsg).foldl trackerStep s).out = s.out := by
  induction chats generalizing s with
  | nil => rfl
  | cons c chats ih => exact ih _

theorem trackerStep_ban (s : WorkerState) (u : String) (t : Int) :
    trackerStep s (.ban u t) =
      { s with heap := (filterMark s.heap u s.ring.doList).2,
               out := s.out ++ [⟨"ban", u, (filterMark s.heap u s.ring.doList).1⟩] } := rfl

/-- C1 (Store-once): for every sequence of chat events for one user
followed by two ban events on that same user processed by one correlator
worker, the second ban's attached-message list is empty: the filter
predicate marks each matched message `Stored`, and a message marked
`Stored` is never again returned by the `!privmsg.Stored` filter. -/
theorem C1_store_once (chats : List PrivateMessage) (u : String)
    (_hu : ∀ c ∈ chats, c.Username = u) (t1 t2 : Int) :
    (runTracker (chats.map WorkerEvent.privmsg ++
        [WorkerEvent.ban u t1, WorkerEvent.ban u t2])).out.length = 2 ∧
    ((runTracker (chats.map WorkerEvent.privmsg ++
        [WorkerEvent.ban u t1, WorkerEvent.ban u t2])).out.map
      SaveCall.attached).getLast? = some [] := by
  have hsplit : runTracker (chats.map WorkerEvent.privmsg ++
      [WorkerEvent.ban u t1, WorkerEvent.ban u t2]) =
      trackerStep (trackerStep ((chats.map WorkerEvent.privmsg).foldl trackerStep
        initWorkerState) (.ban u t1)) (.ban u t2) := by
    rw [runTracker, List.foldl_append]
    rfl
  set s0 := (chats.map WorkerEvent.privmsg).foldl trackerStep initWorkerState with hs0
  have hinv0 : WInv s0 := wInv_fold _ _ wInv_init
  have hout0 : s0.out = [] := out_fold_privmsg chats initWorkerState
  -- first ban
  set fm1 := filterMark s0.heap u s0.ring.doList with hfm1
  have hs1 : trackerStep s0 (.ban u t1) =
      { s0 with heap := fm1.2, out := s0.out ++ [⟨"ban", u, fm1.1⟩] } :=
    trackerStep_ban s0 u t1
  -- after the first ban, no ring pointer still matches the predicate
  have hmarked : ∀ p ∈ s0.ring.doList,
      ¬((fm1.2.getD p noopPrivmsg).Username = u ∧
        (fm1.2.getD p noopPrivmsg).Stored = false) := by
    intro p hp hcontra
    obtain ⟨hname, hstored⟩ := hcontra
    have := filterMark_marks u s0.ring.doList s0.heap hinv0.2 p hp hname
    rw [this] at hstored
    cases hstored
  -- second ban collects nothing
  have hfm2 : filterMark fm1.2 u s0.ring.doList = ([], fm1.2) :=
    filterMark_empty u s0.ring.doList fm1.2 hmarked
  have hs2 : trackerStep { s0 with heap := fm1.2, out := s0.out ++ [⟨"ban", u, fm1.1⟩] }
      (.ban u t2) =
      { s0 with
        heap := fm1.2
        out := (s0.out ++ [⟨"ban", u, fm1.1⟩]) ++ [⟨"ban", u, []⟩] } := by
    rw [trackerStep_ban]
    simp only [hfm2]
  rw [hsplit, hs1, hs2, hout0]
  simp

/-- Witness for C1: one chat by alice, then two bans on alice; the second
ban is saved with an empty attached-message list. -/
theorem C1_store_once_witness :
    (∀ c ∈ [(⟨"1", "alice", "hi", 0, false⟩ : PrivateMessage)],
        c.Username = "alice") ∧
    ((runTracker ([(⟨"1", "alice", "hi", 0, false⟩ : PrivateMessage)].map
        WorkerEvent.privmsg ++
        [WorkerEvent.ban "alice" 5, WorkerEvent.ban "alice" 6])).out.map
      SaveCall.attached).getLast? = some [] :=
  ⟨by decide,
    (C1_store_once [(⟨"1", "alice", "hi", 0, false⟩ : PrivateMessage)] "alice"
      (by decide) 5 6).2⟩

/-- Counterexample to C10 as stated: the claim quantifies over every ring
created by `New(size, def)`, but `New(0, d)` still allocates one physical
node holding `d` (the allocation loop `for i := 1; i < size` does not run
and the single node is linked to itself), so `Filter` on the fresh ring
visits that node and returns one copy of `d` — not `size = 0` copies. -/
theorem C10_fresh_default_counterexample :
    ((fun _ => true) : Nat → Bool) 0 = true ∧
    (MessageRing.New 0 (0 : Nat)).Filter (fun _ => true) = [0] ∧
    (MessageRing.New 0 (0 : Nat)).Filter (fun _ => true) ≠
      List.replicate 0 (0 : Nat) := by
  refine ⟨rfl, by decide, by decide⟩

/-- C10 (Fresh-ring default matching), amended with `size ≥ 1`: on a ring
freshly created by `New(size, def)` all `size` slots hold `def`, so
`Filter p` returns `size` copies of `def` whenever `p def` holds (and
nothing otherwise) and `Find p` returns `def`; after `k < size` appends the
`size − k` slots still holding `def` are still visited and appear at the
tail of the `Do`/`Filter` results. -/
theorem C10_fresh_ring_defaults (V : Type) (size : Nat) (hsize : 1 ≤ size)
    (d : V) (p : V → Bool) (vs : List V) (hk : vs.length < size) :
    (MessageRing.New size d).Filter p =
      (if p d then List.replicate size d else []) ∧
    (MessageRing.New size d).Find p = (if p d then some d else none) ∧
    ((MessageRing.New size d).appendAll vs).doList =
      vs.reverse ++ List.replicate (size - vs.length) d ∧
    ((MessageRing.New size d).appendAll vs).Filter p =
      vs.reverse.filter p ++ (if p d then List.replicate (size - vs.length) d else []) := by
  have hmax : max size 1 = size := Nat.max_eq_left hsize
  have hdo : ((MessageRing.New size d).appendAll vs).doList =
      vs.reverse ++ List.replicate (size - vs.length) d := by
    rw [MessageRing.doList_appendAll size hsize d vs]
    have h1 : min vs.length size = vs.length := by omega
    rw [h1, List.take_of_length_le (by rw [List.length_reverse]; omega)]
  refine ⟨?_, ?_, hdo, ?_⟩
  · rw [MessageRing.Filter, MessageRing.doList_new, hmax, List.filter_replicate]
  · rw [MessageRing.Find, MessageRing.doList_new, hmax,
      List.find?_replicate_of_length_pos (by omega)]
  · rw [MessageRing.Filter, hdo, List.filter_append, List.filter_replicate]

/-- Witness for the amended C10 at `size = 3`, `d = 0`, two appends, and a
predicate matching the default. -/
theorem C10_fresh_ring_defaults_witness :
    (1 ≤ 3 ∧ [10, 20].length < 3) ∧
    (MessageRing.New 3 (0 : Nat)).Filter (fun v => v ≤ 10) =
      (if (0 : Nat) ≤ 10 then List.replicate 3 0 else []) ∧
    ((MessageRing.New 3 (0 : Nat)).appendAll [10, 20]).Filter (fun v => v ≤ 10) =
      [20, 10].filter (fun v => v ≤ 10) ++
        (if (0 : Nat) ≤ 10 then List.replicate (3 - [10, 20].length) 0 else []) := by
  have h := C10_fresh_ring_defaults Nat 3 (by decide) 0
    (fun v => decide (v ≤ 10)) [10, 20] (by decide)
  exact ⟨⟨by decide, by decide⟩, h.1, h.2.2.2⟩

/-! ## Batching storage sink (`Postgres.Start`/`enqueue`/`flush`)

The flush loop selects over the op inbox, the flush-interval ticker and the
lifetime cancellation.  We model the loop as a step function over the
sink's mutable state (`queue`, `size`) driven by a list of events (one op
received, or one ticker tick); cancellation simply ends the event list.
The queue slice is pre-allocated with `maxqueue` nil pointers
(`make([]*Op, maxqueue)`), modelled as `Option Op` entries; `flushes`
records each bulk write (the rows streamed through the `CopyIn`
statement, in order), and `oob` records whether `enqueue` ever wrote past
the end of the queue slice (a Go panic). -/

/-- A pending database operation (`Op`). -/
structure Op where
  banType : String
  username : String
  channel : String
  duration : Int
  messages : String
  atTime : Int
deriving DecidableEq

/-- The sink state used by the flush loop. -/
structure BatcherState where
  queue : List (Option Op)
  maxqueue : Nat
  size : Nat
  flushes : List (List (Option Op))
  oob : Bool
deriving DecidableEq

/-- What the flush loop can observe on one iteration of its select. -/
inductive BatcherEvent where
  | recv (op : Op)
  | tick

/-- `enqueue`: `sto.queue[sto.size] = op; sto.size++` (the write panics in
Go when `size` is out of the queue's bounds; we record that in `oob`). -/
def enqueue (s : BatcherState) (op : Op) : BatcherState :=
  { s with
    queue := s.queue.set s.size (some op)
    oob := s.oob || decide (s.queue.length ≤ s.size)
    size := s.size + 1 }

/-- `flush`: a no-op when the buffer is empty, otherwise streams
`queue[0 .. size-1]` in order through one bulk insert and resets `size`. -/
def flush (s : BatcherState) : BatcherState :=
  if s.size = 0 then { s with size := 0 }
  else { s with flushes := s.flushes ++ [s.queue.take s.size], size := 0 }

/-- One iteration of the `Start` select loop. -/
def batcherStep (s : BatcherState) : BatcherEvent → BatcherState
  | .recv op =>
    let s' := enqueue s op
    if s'.size ≥ s.maxqueue then flush s' else s'
  | .tick => flush s

/-- The sink state right after `NewPostgresStorageWithCancel`: a fresh
queue of `maxqueue` nil slots and an empty buffer. -/
def initBatcher (maxqueue : Nat) : BatcherState :=
  { queue := List.replicate maxqueue none, maxqueue := maxqueue, size := 0,
    flushes := [], oob := false }

def runBatcher (maxqueue : Nat) (evs : List BatcherEvent) : BatcherState :=
  evs.foldl batcherStep (initBatcher maxqueue)

theorem batcherStep_recv_no_flush (s : BatcherState) (op : Op)
    (h : s.size + 1 < s.maxqueue) :
    batcherStep s (.recv op) = enqueue s op := by
  rw [batcherStep]
  have he : (enqueue s op).size = s.size + 1 := rfl
  exact if_neg (by omega)

theorem batcherStep_recv_flush (s : BatcherState) (op : Op)
    (h : s.size + 1 ≥ s.maxqueue) :
    batcherStep s (.recv op) = flush (enqueue s op) := by
  rw [batcherStep]
  exact if_pos h

/-- Writing `some op` at the first free slot of a partially-filled queue. -/
theorem queueSetSpec (pre : List Op) (op : Op) (m : Nat) (hm : 1 ≤ m) :
    ((pre.map some ++ List.replicate m (none : Option Op)).set pre.length
      (some op)) = (pre ++ [op]).map some ++ List.replicate (m - 1) none := by
  rw [List.set_append_right _ _ (by simp)]
  simp only [List.length_map, Nat.sub_self]
  obtain ⟨m', rfl⟩ : ∃ m', m = m' + 1 := ⟨m - 1, by omega⟩
  rw [List.replicate_succ, List.set_cons_zero, List.map_append]
  simp

/-- State of the flush loop after receiving fewer ops than the capacity:
everything is buffered in arrival order and nothing has been flushed. -/
theorem runBatcher_prefix (C : Nat) (ops : List Op) (h : ops.length < C) :
    (runBatcher C (ops.map BatcherEvent.recv)).queue =
      ops.map some ++ List.replicate (C - ops.length) none ∧
    (runBatcher C (ops.map BatcherEvent.recv)).maxqueue = C ∧
    (runBatcher C (ops.map BatcherEvent.recv)).size = ops.length ∧
    (runBatcher C (ops.map BatcherEvent.recv)).flushes = [] ∧
    (runBatcher C (ops.map BatcherEvent.recv)).oob = false := by
  induction ops using List.reverseRecOn with
  | nil => simp [runBatcher, initBatcher]
  | append_singleton ops op ih =>
    rw [List.length_append, List.length_singleton] at h
    have hk : ops.length < C := by omega
    obtain ⟨ihq, ihm, ihs, ihf, iho⟩ := ih hk
    have hstep : runBatcher C ((ops ++ [op]).map BatcherEvent.recv) =
        batcherStep (runBatcher C (ops.map BatcherEvent.recv)) (.recv op) := by
      rw [runBatcher, List.map_append, List.foldl_append]
      rfl
    set s0 := runBatcher C (ops.map BatcherEvent.recv) with hs0
    rw [hstep, batcherStep_recv_no_flush s0 op (by rw [ihs, ihm]; omega)]
    refine ⟨?_, ihm, ?_, ihf, ?_⟩
    · have hq : (enqueue s0 op).queue = s0.queue.set s0.size (some op) := rfl
      rw [hq, ihq, ihs, queueSetSpec ops op (C - ops.length) (by omega)]
      have harith : C - ops.length - 1 = C - (ops ++ [op]).length := by
        simp
        omega
      rw [harith]
    · have hsz : (enqueue s0 op).size = s0.size + 1 := rfl
      rw [hsz, ihs]
      simp
    · have hoob : (enqueue s0 op).oob =
          (s0.oob || decide (s0.queue.length ≤ s0.size)) := rfl
      rw [hoob, iho, ihq, ihs]
      simp only [Bool.false_or, List.length_append, List.length_map,
        List.length_replicate, decide_eq_false_iff_not]
      omega

/-- C3 (Batcher fullness): for a batcher of capacity `C ≥ 1` starting from
an empty buffer, with no interval tick or cancellation, receiving exactly
`C` saved operations causes exactly one flush, that flush streams exactly
the `C` received operations in arrival order, and the buffer count is reset
to 0. -/
theorem C3_batcher_fullness (C : Nat) (hC : 1 ≤ C) (ops : List Op)
    (hlen : ops.length = C) :
    (runBatcher C (ops.map BatcherEvent.recv)).flushes = [ops.map some] ∧
    (runBatcher C (ops.map BatcherEvent.recv)).size = 0 := by
  obtain ⟨pre, op, rfl⟩ : ∃ pre op, ops = pre ++ [op] := by
    rcases List.eq_nil_or_concat ops with rfl | ⟨pre, op, hc⟩
    · simp at hlen; omega
    · exact ⟨pre, op, by rw [hc, List.concat_eq_append]⟩
  rw [List.length_append, List.length_singleton] at hlen
  have hpre : pre.length < C := by omega
  obtain ⟨ihq, ihm, ihs, ihf, iho⟩ := runBatcher_prefix C pre hpre
  have hstep : runBatcher C ((pre ++ [op]).map BatcherEvent.recv) =
      batcherStep (runBatcher C (pre.map BatcherEvent.recv)) (.recv op) := by
    rw [runBatcher, List.map_append, List.foldl_append]
    rfl
  set s0 := runBatcher C (pre.map BatcherEvent.recv) with hs0
  rw [hstep, batcherStep_recv_flush s0 op (by rw [ihs, ihm]; omega)]
  have hq1 : (enqueue s0 op).queue = (pre ++ [op]).map some := by
    have hq : (enqueue s0 op).queue = s0.queue.set s0.size (some op) := rfl
    rw [hq, ihq, ihs, queueSetSpec pre op (C - pre.length) (by omega)]
    have harith : C - pre.length - 1 = 0 := by omega
    rw [harith]
    simp
  have hs1 : (enqueue s0 op).size = C := by
    have hsz : (enqueue s0 op).size = s0.size + 1 := rfl
    rw [hsz, ihs]
    omega
  have hfl : flush (enqueue s0 op) =
      { enqueue s0 op with
        flushes := (enqueue s0 op).flushes ++
          [(enqueue s0 op).queue.take (enqueue s0 op).size]
        size := 0 } := by
    rw [flush]
    exact if_neg (by rw [hs1]; omega)
  rw [hfl]
  constructor
  · have hf0 : (enqueue s0 op).flushes = s0.flushes := rfl
    show (enqueue s0 op).flushes ++
      [(enqueue s0 op).queue.take (enqueue s0 op).size] = _
    rw [hf0, ihf, hq1, hs1, List.nil_append,
      List.take_of_length_le (by simp; omega)]
  · rfl

/-- Witness for C3 at capacity 2 with two concrete ops. -/
theorem C3_batcher_fullness_witness :
    (1 ≤ 2 ∧ ([⟨"ban", "alice", "c", 0, "hi", 3⟩,
        ⟨"timeout", "bob", "c", 10, "x", 4⟩] : List Op).length = 2) ∧
    (runBatcher 2 (([⟨"ban", "alice", "c", 0, "hi", 3⟩,
        ⟨"timeout", "bob", "c", 10, "x", 4⟩] : List Op).map
      BatcherEvent.recv)).flushes =
      [[some ⟨"ban", "alice", "c", 0, "hi", 3⟩,
        some ⟨"timeout", "bob", "c", 10, "x", 4⟩]] :=
  ⟨⟨by decide, by decide⟩,
    ((C3_batcher_fullness 2 (by decide)
      [⟨"ban", "alice", "c", 0, "hi", 3⟩, ⟨"timeout", "bob", "c", 10, "x", 4⟩]
      (by decide)).1).trans (by decide)⟩

/-- One loop iteration preserves the C9 invariant: the buffer count stays
strictly below the capacity, the queue keeps its allocated length, and no
out-of-bounds write happens. -/
theorem batcherStep_inv (s : BatcherState) (e : BatcherEvent)
    (h1 : s.size < s.maxqueue) (h3 : s.queue.length = s.maxqueue)
    (h4 : s.oob = false) :
    (batcherStep s e).size < s.maxqueue ∧
    (batcherStep s e).maxqueue = s.maxqueue ∧
    (batcherStep s e).queue.length = s.maxqueue ∧
    (batcherStep s e).oob = false := by
  cases e with
  | recv op =>
    have hsz : (enqueue s op).size = s.size + 1 := rfl
    have hql : (enqueue s op).queue.length = s.queue.length := by
      show (s.queue.set s.size (some op)).length = s.queue.length
      simp
    have hob : (enqueue s op).oob = false := by
      show (s.oob || decide (s.queue.length ≤ s.size)) = false
      rw [h4, Bool.false_or, decide_eq_false_iff_not]
      omega
    rw [batcherStep]
    split
    · rw [flush]
      split
      · exact ⟨by show (0 : Nat) < s.maxqueue; omega, rfl, h3 ▸ hql, hob⟩
      · exact ⟨by show (0 : Nat) < s.maxqueue; omega, rfl, h3 ▸ hql, hob⟩
    · next hguard =>
      refine ⟨?_, rfl, h3 ▸ hql, hob⟩
      show s.size + 1 < s.maxqueue
      rw [hsz] at hguard
      omega
  | tick =>
    have hb : batcherStep s .tick = flush s := rfl
    rw [hb, flush]
    split
    · exact ⟨by show (0 : Nat) < s.maxqueue; omega, rfl, h3, h4⟩
    · exact ⟨by show (0 : Nat) < s.maxqueue; omega, rfl, h3, h4⟩

/-- C9 (Pending-buffer bound): starting from the freshly-created sink with
capacity `maxqueue ≥ 1`, after any sequence of loop iterations (op receives
and ticker ticks, in any order) the buffer count stays within
`[0, maxqueue]` and no `sto.queue[sto.size]` write of `enqueue` ever
indexes outside the fixed-size queue slice. -/
theorem C9_pending_buffer_bound (C : Nat) (hC : 1 ≤ C)
    (evs : List BatcherEvent) :
    (runBatcher C evs).size ≤ C ∧ (runBatcher C evs).oob = false := by
  suffices h : ∀ (s : BatcherState),
      s.size < s.maxqueue → s.maxqueue = C → s.queue.length = s.maxqueue →
      s.oob = false →
      (evs.foldl batcherStep s).size < (evs.foldl batcherStep s).maxqueue ∧
      (evs.foldl batcherStep s).maxqueue = C ∧
      (evs.foldl batcherStep s).oob = false by
    obtain ⟨h1, h2, h3⟩ := h (initBatcher C)
      (by simp [initBatcher]; omega) rfl (by simp [initBatcher]) rfl
    exact ⟨by rw [runBatcher]; omega, by rw [runBatcher]; exact h3⟩
  induction evs with
  | nil => intro s h1 h2 h3 h4; exact ⟨h1, h2, h4⟩
  | cons e evs ih =>
    intro s h1 h2 h3 h4
    rw [List.foldl_cons]
    obtain ⟨g1, g2, g3, g4⟩ := batcherStep_inv s e h1 h3 h4
    exact ih (batcherStep s e) (g2 ▸ g1) (g2.trans h2) (g3.trans g2.symm) g4

/-- Witness for C9: capacity 1, one op received then a tick. -/
theorem C9_pending_buffer_bound_witness :
    1 ≤ 1 ∧
    (runBatcher 1 [BatcherEvent.recv ⟨"ban", "a", "c", 0, "", 0⟩,
      BatcherEvent.tick]).size ≤ 1 ∧
    (runBatcher 1 [BatcherEvent.recv ⟨"ban", "a", "c", 0, "", 0⟩,
      BatcherEvent.tick]).oob = false :=
  ⟨by decide,
    (C9_pending_buffer_bound 1 (by decide)
      [BatcherEvent.recv ⟨"ban", "a", "c", 0, "", 0⟩, BatcherEvent.tick]).1,
    (C9_pending_buffer_bound 1 (by decide)
      [BatcherEvent.recv ⟨"ban", "a", "c", 0, "", 0⟩, BatcherEvent.tick]).2⟩

/-! ## Heuristics analyzer (internal/heuristics/heuristics.go, rules.go)

A rule is a final/ordinary vote on a `Traits` projection of a moderation
event.  Times are modelled in seconds as rationals (`time.Time` differences
via `Sub(...).Seconds()`); the regex-based `NoLinks` rule is not needed by
the claims and is not modelled. -/

/-- `message.MessageType`. -/
inductive MessageType where
  | privmsg
  | ban
  | timeout
  | deletion
deriving DecidableEq

/-- `heuristics.Traits`: the projection the analyzer consumes.  `At` and
`ModeratedAt` are times in seconds. -/
structure Traits where
  Type' : MessageType
  Body : String
  At : Rat
  ModeratedAt : Rat
  TimeoutDuration : Int
  IsMostRecentMsg : Bool

/-- A compiled rule: its `Final()` bit and its `IsCompliant` vote.  (The
`Compile()` step only precompiles regexes and does not affect votes.) -/
structure Rule where
  Final : Bool
  IsCompliant : Traits → Bool

/-- `Analyzer.IsCompliant`: walk the rules in order; a final rule voting
true short-circuits to compliant, a final rule voting false is skipped, an
ordinary rule voting false vetoes. -/
def analyzerIsCompliant : List Rule → Traits → Bool
  | [], _ => true
  | r :: rs, target =>
    let v := r.IsCompliant target
    if r.Final then
      if v then true else analyzerIsCompliant rs target
    else
      if !v then false else analyzerIsCompliant rs target

/-- `AlwaysStoreBans`: final; compliant iff the event is a ban. -/
def ruleAlwaysStoreBans : Rule :=
  { Final := true, IsCompliant := fun t => t.Type' == MessageType.ban }

/-- `OnlyHumanModerations(min)`: ordinary; for the most recent message
require `ModeratedAt − At > min` seconds, otherwise compliant. -/
def ruleOnlyHumanModerations (minHumanlyPossible : Rat) : Rule :=
  { Final := false,
    IsCompliant := fun t =>
      if t.IsMostRecentMsg then decide (t.ModeratedAt - t.At > minHumanlyPossible)
      else true }

/-- `MinTimeoutDuration(min)`: ordinary; timeouts must exceed `min`
seconds, other kinds are unaffected. -/
def ruleMinTimeoutDuration (min : Int) : Rule :=
  { Final := false,
    IsCompliant := fun t =>
      if t.Type' == MessageType.timeout then decide (t.TimeoutDuration > min)
      else true }

/-- `MinHumanlyPossible` (0.9 s) from the tracker's storage package. -/
def MinHumanlyPossible : Rat := 9 / 10

/-- Counterexample to C4 as stated: with the rule list
`[OnlyHumanModerations(0.9), AlwaysStoreBans]` and a ban moderated at the
same instant as its most recent message, the final rule `AlwaysStoreBans`
votes true, yet `IsCompliant` returns false: the ordinary rule before it
already vetoed, so a final-true rule does not override the votes of
*earlier* ordinary rules (only subsequent ones). -/
theorem C4_short_circuit_counterexample :
    ruleAlwaysStoreBans.Final = true ∧
    ruleAlwaysStoreBans.IsCompliant
      ⟨MessageType.ban, "hi", 0, 0, 0, true⟩ = true ∧
    ruleAlwaysStoreBans ∈
      [ruleOnlyHumanModerations MinHumanlyPossible, ruleAlwaysStoreBans] ∧
    analyzerIsCompliant
      [ruleOnlyHumanModerations MinHumanlyPossible, ruleAlwaysStoreBans]
      ⟨MessageType.ban, "hi", 0, 0, 0, true⟩ = false := by
  have hv : (ruleOnlyHumanModerations MinHumanlyPossible).IsCompliant
      ⟨MessageType.ban, "hi", 0, 0, 0, true⟩ = false := by
    simp [ruleOnlyHumanModerations, MinHumanlyPossible]
    norm_num
  refine ⟨rfl, by decide, by simp, ?_⟩
  rw [analyzerIsCompliant]
  simp only [hv]
  rfl

/-- C4 (Analyzer short-circuit), amended to respect rule order: (a) a final
rule voting true makes the analyzer compliant regardless of the votes of
all rules after it, provided no ordinary rule before it voted false;
(b) a final rule voting false is skipped: the result is as if the rule were
absent; (c) an ordinary rule voting false vetoes, provided no final rule
before it voted true. -/
theorem C4_short_circuit_amended :
    (∀ (pre post : List Rule) (f : Rule) (t : Traits),
      f.Final = true → f.IsCompliant t = true →
      (∀ r ∈ pre, r.Final = true ∨ r.IsCompliant t = true) →
      analyzerIsCompliant (pre ++ f :: post) t = true) ∧
    (∀ (pre post : List Rule) (f : Rule) (t : Traits),
      f.Final = true → f.IsCompliant t = false →
      analyzerIsCompliant (pre ++ f :: post) t =
        analyzerIsCompliant (pre ++ post) t) ∧
    (∀ (pre post : List Rule) (r : Rule) (t : Traits),
      r.Final = false → r.IsCompliant t = false →
      (∀ r' ∈ pre, ¬(r'.Final = true ∧ r'.IsCompliant t = true)) →
      analyzerIsCompliant (pre ++ r :: post) t = false) := by
  refine ⟨?_, ?_, ?_⟩
  · intro pre post f t hF hV hpre
    induction pre with
    | nil =>
      rw [List.nil_append, analyzerIsCompliant]
      simp [hF, hV]
    | cons r pre ih =>
      rw [List.cons_append, analyzerIsCompliant]
      have hr := hpre r (List.mem_cons_self _ _)
      have ihr := ih (fun r' h' => hpre r' (List.mem_cons_of_mem _ h'))
      cases hrf : r.Final with
      | true =>
        cases hrv : r.IsCompliant t with
        | true => simp [hrv]
        | false => simp [hrv, ihr]
      | false =>
        rcases hr with hr | hr
        · rw [hrf] at hr; cases hr
        · simp [hrf, hr, ihr]
  · intro pre post f t hF hV
    induction pre with
    | nil =>
      rw [List.nil_append, List.nil_append, analyzerIsCompliant]
      simp [hF, hV]
    | cons r pre ih =>
      rw [List.cons_append, List.cons_append, analyzerIsCompliant,
        analyzerIsCompliant]
      cases hrf : r.Final <;> cases hrv : r.IsCompliant t <;>
        simp [hrf, hrv, ih]
  · intro pre post r t hF hV hpre
    induction pre with
    | nil =>
      rw [List.nil_append, analyzerIsCompliant]
      simp [hF, hV]
    | cons r' pre ih =>
      rw [List.cons_append, analyzerIsCompliant]
      have hr := hpre r' (List.mem_cons_self _ _)
      have ihr := ih (fun x hx => hpre x (List.mem_cons_of_mem _ hx))
      cases hrf : r'.Final with
      | true =>
        have hrv : r'.IsCompliant t = false := by
          cases hv : r'.IsCompliant t with
          | true => exact absurd ⟨hrf, hv⟩ hr
          | false => rfl
        simp [hrv, ihr]
      | false =>
        cases hrv : r'.IsCompliant t with
        | true => simp [hrv, ihr]
        | false => simp [hrv]

/-- Witness for the amended C4, using the repo's own rules: (a) a ban with
`[MinTimeoutDuration(5), AlwaysStoreBans]`; (b) skipping a false final
`AlwaysStoreBans` on a timeout; (c) `MinTimeoutDuration(5)` vetoing a 3 s
timeout. -/
theorem C4_short_circuit_amended_witness :
    (ruleAlwaysStoreBans.Final = true ∧
      ruleAlwaysStoreBans.IsCompliant ⟨MessageType.ban, "", 0, 5, 0, false⟩ = true ∧
      analyzerIsCompliant [ruleMinTimeoutDuration 5, ruleAlwaysStoreBans]
        ⟨MessageType.ban, "", 0, 5, 0, false⟩ = true) ∧
    analyzerIsCompliant
        [ruleAlwaysStoreBans, ruleMinTimeoutDuration 5]
        ⟨MessageType.timeout, "", 0, 5, 3, false⟩ =
      analyzerIsCompliant [ruleMinTimeoutDuration 5]
        ⟨MessageType.timeout, "", 0, 5, 3, false⟩ ∧
    analyzerIsCompliant [ruleMinTimeoutDuration 5]
      ⟨MessageType.timeout, "", 0, 5, 3, false⟩ = false := by
  refine ⟨⟨rfl, by decide, ?_⟩, ?_, ?_⟩
  · exact C4_short_circuit_amended.1 [ruleMinTimeoutDuration 5] []
      ruleAlwaysStoreBans ⟨MessageType.ban, "", 0, 5, 0, false⟩ rfl (by decide)
      (by intro r hr; simp at hr; subst hr; right; decide)
  · exact C4_short_circuit_amended.2.1 [] [ruleMinTimeoutDuration 5]
      ruleAlwaysStoreBans ⟨MessageType.timeout, "", 0, 5, 3, false⟩ rfl (by decide)
  · exact C4_short_circuit_amended.2.2 [] [] (ruleMinTimeoutDuration 5)
      ⟨MessageType.timeout, "", 0, 5, 3, false⟩ rfl (by decide) (by simp)

/-! ## Body escaping and the `messages` column

`Save` joins the attached message bodies with `|`, escaping literal `|`
inside a body as `\|` (`strings.NewReplacer(sep, "\\"+sep)`), and trims the
trailing separator.  Strings are modelled as `List Char`. -/

/-- `replacer.Replace(body)`: replace every occurrence of `|` by `\|`,
scanning left to right. -/
def encodeBody : List Char → List Char
  | [] => []
  | c :: cs => if c = '|' then '\\' :: '|' :: encodeBody cs else c :: encodeBody cs

/-- The `messages` string built by the guarded `Save`
(message.go-style: write each escaped body followed by `|`, then trim the
final separator only when the string is nonempty). -/
def saveMessagesStr (bodies : List (List Char)) : List Char :=
  let str := (bodies.map (fun b => encodeBody b ++ ['|'])).flatten
  if str.length > 0 then str.dropLast else str

/-- Modelled from the spec: the decoder is not part of this repository
(no reader of the `messages` column exists in the source); the spec states
the column "split on un-escaped `|` and un-escaped reproduces b₁,…,bₘ".
`splitUnescaped` splits on every `|` not immediately preceded by a
backslash escape, scanning left to right. -/
def splitUnescaped : List Char → List (List Char)
  | [] => [[]]
  | '\\' :: '|' :: rest =>
    let ps := splitUnescaped rest
    ('\\' :: '|' :: ps.headD []) :: ps.tail
  | '|' :: rest => [] :: splitUnescaped rest
  | c :: rest =>
    let ps := splitUnescaped rest
    (c :: ps.headD []) :: ps.tail

/-- Modelled from the spec: un-escaping one part, turning each `\|` back
into `|`. -/
def unescapeBody : List Char → List Char
  | [] => []
  | '\\' :: '|' :: rest => '|' :: unescapeBody rest
  | c :: rest => c :: unescapeBody rest

/-- Modelled from the spec: decoding the `messages` column. -/
def decodeMessages (s : List Char) : List (List Char) :=
  (splitUnescaped s).map unescapeBody

theorem unescapeBody_cons_ne (c : Char) (rest : List Char) (hc : c ≠ '\\') :
    unescapeBody (c :: rest) = c :: unescapeBody rest := by
  rw [unescapeBody.eq_def]
  split
  · simp_all
  · simp_all
  · simp_all

theorem splitUnescaped_cons_ne (c : Char) (rest : List Char)
    (hc : c ≠ '\\') (hc2 : c ≠ '|') :
    splitUnescaped (c :: rest) =
      (c :: (splitUnescaped rest).headD []) :: (splitUnescaped rest).tail := by
  rw [splitUnescaped.eq_def]
  split
  · simp_all
  · simp_all
  · simp_all
  · simp_all

/-- Un-escaping inverts escaping on any body with no backslash. -/
theorem unescape_encode (b : List Char) (h : '\\' ∉ b) :
    unescapeBody (encodeBody b) = b := by
  induction b with
  | nil => rfl
  | cons c cs ih =>
    have hc : c ≠ '\\' := fun hcc => h (hcc ▸ List.mem_cons_self _ _)
    have hcs : '\\' ∉ cs := fun hm => h (List.mem_cons_of_mem _ hm)
    by_cases hpipe : c = '|'
    · subst hpipe
      rw [encodeBody, if_pos rfl]
      show unescapeBody ('\\' :: '|' :: encodeBody cs) = _
      rw [unescapeBody, ih hcs]
    · rw [encodeBody, if_neg hpipe, unescapeBody_cons_ne c _ hc, ih hcs]

/-- Splitting recognizes an escaped body followed by an un-escaped
separator. -/
theorem split_encode (b : List Char) (rest : List Char) (h : '\\' ∉ b) :
    splitUnescaped (encodeBody b ++ '|' :: rest) =
      encodeBody b :: splitUnescaped rest := by
  induction b with
  | nil => rfl
  | cons c cs ih =>
    have hc : c ≠ '\\' := fun hcc => h (hcc ▸ List.mem_cons_self _ _)
    have hcs : '\\' ∉ cs := fun hm => h (List.mem_cons_of_mem _ hm)
    by_cases hpipe : c = '|'
    · subst hpipe
      rw [encodeBody, if_pos rfl]
      show splitUnescaped ('\\' :: '|' :: (encodeBody cs ++ '|' :: rest)) = _
      rw [show splitUnescaped ('\\' :: '|' :: (encodeBody cs ++ '|' :: rest)) =
        ('\\' :: '|' :: (splitUnescaped (encodeBody cs ++ '|' :: rest)).headD []) ::
          (splitUnescaped (encodeBody cs ++ '|' :: rest)).tail from rfl]
      rw [ih hcs]
      rfl
    · rw [encodeBody, if_neg hpipe]
      show splitUnescaped (c :: (encodeBody cs ++ '|' :: rest)) = _
      rw [splitUnescaped_cons_ne c _ hc hpipe, ih hcs]
      rfl

/-- Splitting a single escaped body with no separator after it. -/
theorem split_encode_last (b : List Char) (h : '\\' ∉ b) :
    splitUnescaped (encodeBody b) = [encodeBody b] := by
  induction b with
  | nil => rfl
  | cons c cs ih =>
    have hc : c ≠ '\\' := fun hcc => h (hcc ▸ List.mem_cons_self _ _)
    have hcs : '\\' ∉ cs := fun hm => h (List.mem_cons_of_mem _ hm)
    by_cases hpipe : c = '|'
    · subst hpipe
      rw [encodeBody, if_pos rfl]
      show splitUnescaped ('\\' :: '|' :: encodeBody cs) = _
      rw [show splitUnescaped ('\\' :: '|' :: encodeBody cs) =
        ('\\' :: '|' :: (splitUnescaped (encodeBody cs)).headD []) ::
          (splitUnescaped (encodeBody cs)).tail from rfl]
      rw [ih hcs]
      rfl
    · rw [encodeBody, if_neg hpipe]
      show splitUnescaped (c :: encodeBody cs) = _
      rw [splitUnescaped_cons_ne c _ hc hpipe, ih hcs]
      rfl

/-- `Save`'s string for a nonempty body list, unfolded one body at a
time. -/
theorem saveMessagesStr_cons (b : List Char) (bs : List (List Char))
    (hbs : bs ≠ []) :
    saveMessagesStr (b :: bs) = encodeBody b ++ '|' :: saveMessagesStr bs := by
  obtain ⟨b', bs', rfl⟩ : ∃ b' bs', bs = b' :: bs' := by
    cases bs with
    | nil => exact absurd rfl hbs
    | cons b' bs' => exact ⟨b', bs', rfl⟩
  rw [saveMessagesStr, saveMessagesStr]
  simp only [List.map_cons, List.flatten_cons]
  have hne : ((encodeBody b' ++ ['|']) ++
      ((bs'.map (fun x => encodeBody x ++ ['|'])).flatten)).length > 0 := by
    simp
  rw [if_pos (by simp), if_pos hne]
  rw [List.dropLast_append_of_ne_nil _ (by
    intro hnil
    rw [hnil] at hne
    simp at hne)]
  simp

theorem saveMessagesStr_single (b : List Char) :
    saveMessagesStr [b] = encodeBody b := by
  rw [saveMessagesStr]
  simp only [List.map_cons, List.map_nil, List.flatten_cons, List.flatten_nil,
    List.append_nil]
  rw [if_pos (by simp)]
  exact List.dropLast_concat

/-- Counterexample to C5 as stated: the escaper escapes `|` but not the
backslash itself, so the bodies `["\", "x"]` encode to the string `\|x`,
whose only `|` looks escaped; decoding yields the single body `|x` instead
of the original pair. -/
theorem C5_escaping_counterexample :
    saveMessagesStr [['\\'], ['x']] = ['\\', '|', 'x'] ∧
    decodeMessages (saveMessagesStr [['\\'], ['x']]) = [['|', 'x']] ∧
    decodeMessages (saveMessagesStr [['\\'], ['x']]) ≠ [['\\'], ['x']] := by
  refine ⟨rfl, rfl, by decide⟩

/-- C5 (Escaping round-trip), amended: for every nonempty list of message
bodies that contain no backslash, splitting the encoded `messages` string
on un-escaped `|` and un-escaping reproduces exactly the original bodies.
(Bodies containing `\` break the round-trip, and the encoding of the empty
list coincides with that of a single empty body.) -/
theorem C5_escaping_roundtrip (bodies : List (List Char))
    (hne : bodies ≠ []) (hnb : ∀ b ∈ bodies, '\\' ∉ b) :
    decodeMessages (saveMessagesStr bodies) = bodies := by
  induction bodies with
  | nil => exact absurd rfl hne
  | cons b bs ih =>
    have hb : '\\' ∉ b := hnb b (List.mem_cons_self _ _)
    have hbs : ∀ x ∈ bs, '\\' ∉ x := fun x hx => hnb x (List.mem_cons_of_mem _ hx)
    cases bs with
    | nil =>
      rw [saveMessagesStr_single, decodeMessages, split_encode_last b hb]
      simp [unescape_encode b hb]
    | cons b' bs' =>
      rw [saveMessagesStr_cons b (b' :: bs') (by simp), decodeMessages,
        split_encode b _ hb, List.map_cons, unescape_encode b hb]
      have := ih (by simp) hbs
      rw [decodeMessages] at this
      rw [this]

/-- Witness for the amended C5: bodies `["a|b", "c"]` (no backslashes)
round-trip through the encoding. -/
theorem C5_escaping_roundtrip_witness :
    (([['a', '|', 'b'], ['c']] : List (List Char)) ≠ [] ∧
      ∀ b ∈ ([['a', '|', 'b'], ['c']] : List (List Char)), '\\' ∉ b) ∧
    decodeMessages (saveMessagesStr [['a', '|', 'b'], ['c']]) =
      [['a', '|', 'b'], ['c']] :=
  ⟨⟨by decide, by decide⟩,
    C5_escaping_roundtrip [['a', '|', 'b'], ['c']] (by decide) (by decide)⟩

/-! ## CLEARCHAT translation (the IRC source adapters)

Two revisions of `handleClearChat` exist in the sources: the
`internal/bot/bot.go` one, which maps `banDuration == 0` to a ban and
anything else to a timeout and never drops a frame, and the tracker one
(the bot package using `message.Message`), which ignores frames with an
empty target *and* every frame whose duration is nonzero ("ignore
everything but bans"). -/

/-- The fields of `twitch.ClearChatMessage` the handlers read. -/
structure ClearChatMessage where
  BanDuration : Int
  Channel : String
  TargetUsername : String
  Time : Int
deriving DecidableEq

/-- A typed event the adapter writes into the per-channel inbox. -/
structure EmittedEvent where
  Type' : MessageType
  Channel : String
  Username : String
  Duration : Int
  Time : Int
deriving DecidableEq

/-- `handleClearChat` of `internal/bot/bot.go`: `typ := MessageTimeout; if
d == 0 { typ = MessageBan }`, then always send. -/
def handleClearChatBot (m : ClearChatMessage) : Option EmittedEvent :=
  let typ := if m.BanDuration = 0 then MessageType.ban else MessageType.timeout
  some ⟨typ, m.Channel, m.TargetUsername, m.BanDuration, m.Time⟩

/-- `handleClearChat` of the tracker adapter: return on empty target
(channel-wide clear), return on `d != 0` ("ignore everything but bans"),
otherwise send a ban. -/
def handleClearChatTracker (m : ClearChatMessage) : Option EmittedEvent :=
  if m.TargetUsername = "" then none
  else if m.BanDuration ≠ 0 then none
  else some ⟨MessageType.ban, m.Channel, m.TargetUsername, m.BanDuration, m.Time⟩

/-- Counterexample to C6 as stated: a CLEARCHAT frame with a nonzero
duration and a nonempty target must, per the claim, become a timeout event
carrying the duration, but the tracker adapter emits nothing (it drops
everything except permanent bans). -/
theorem C6_clearchat_counterexample :
    (⟨5, "chan", "alice", 100⟩ : ClearChatMessage).TargetUsername ≠ "" ∧
    (⟨5, "chan", "alice", 100⟩ : ClearChatMessage).BanDuration ≠ 0 ∧
    handleClearChatTracker ⟨5, "chan", "alice", 100⟩ = none := by
  refine ⟨by decide, by decide, by decide⟩

/-- C6 (CLEARCHAT translation), amended per adapter: the bot.go adapter
emits a ban when `banDuration == 0` and a timeout carrying the duration
otherwise, without any empty-target check; the tracker adapter emits a ban
only when the target is nonempty and `banDuration == 0`, and emits nothing
for empty-target frames and for every nonzero duration (timeouts are
dropped). -/
theorem C6_clearchat_amended (m : ClearChatMessage) :
    (m.BanDuration = 0 →
      handleClearChatBot m =
        some ⟨MessageType.ban, m.Channel, m.TargetUsername, m.BanDuration, m.Time⟩) ∧
    (m.BanDuration ≠ 0 →
      handleClearChatBot m =
        some ⟨MessageType.timeout, m.Channel, m.TargetUsername, m.BanDuration, m.Time⟩) ∧
    (m.TargetUsername = "" → handleClearChatTracker m = none) ∧
    (m.TargetUsername ≠ "" → m.BanDuration ≠ 0 →
      handleClearChatTracker m = none) ∧
    (m.TargetUsername ≠ "" → m.BanDuration = 0 →
      handleClearChatTracker m =
        some ⟨MessageType.ban, m.Channel, m.TargetUsername, m.BanDuration, m.Time⟩) := by
  refine ⟨?_, ?_, ?_, ?_, ?_⟩
  · intro h
    rw [handleClearChatBot]
    simp [h]
  · intro h
    rw [handleClearChatBot]
    simp [h]
  · intro h
    rw [handleClearChatTracker, if_pos h]
  · intro h1 h2
    rw [handleClearChatTracker, if_neg h1, if_pos h2]
  · intro h1 h2
    rw [handleClearChatTracker, if_neg h1, if_neg (by simp [h2])]

/-- Witness for the amended C6: a permanent ban frame through both
adapters, and a 5-second timeout frame dropped by the tracker adapter. -/
theorem C6_clearchat_amended_witness :
    handleClearChatBot ⟨0, "c", "alice", 7⟩ =
      some ⟨MessageType.ban, "c", "alice", 0, 7⟩ ∧
    handleClearChatTracker ⟨0, "c", "alice", 7⟩ =
      some ⟨MessageType.ban, "c", "alice", 0, 7⟩ ∧
    handleClearChatTracker ⟨5, "c", "alice", 7⟩ = none :=
  ⟨(C6_clearchat_amended ⟨0, "c", "alice", 7⟩).1 rfl,
    (C6_clearchat_amended ⟨0, "c", "alice", 7⟩).2.2.2.2 (by decide) rfl,
    (C6_clearchat_amended ⟨5, "c", "alice", 7⟩).2.2.2.1 (by decide) (by decide)⟩

/-! ## `Save` with an empty attached-message list

`internal/bot/storage.go` builds the joined string and then trims the
trailing separator with `str[:len(str)-1]` unconditionally; when the
attached list is empty `str` is `""` and the slice bound is `-1`, a runtime
panic.  The later revision (the `Save` at message.go:598-618) guards the
trim with `if len(str) > 0`. -/

/-- The storage.go `Save`'s `messages` value: `none` models the
slice-bounds panic of `str[:len(str)-1]` on the empty string. -/
def saveMessagesOld (recent : List (List Char)) : Option (List Char) :=
  let str := (recent.map (fun b => encodeBody b ++ ['|'])).flatten
  if str.length = 0 then none else some str.dropLast

/-- C7 (Ban with empty context): evaluating both `Save` revisions on an
event whose history filter matched nothing.  The guarded revision
(`saveMessagesStr`, message.go:598-618) enqueues the empty `messages`
string as the claim states; the storage.go revision (`saveMessagesOld`,
lines 109-125) slices `""[:-1]` and panics instead of enqueueing — the
code bug behind this claim. -/
theorem C7_save_empty_context :
    saveMessagesOld [] = none ∧
    saveMessagesStr [] = [] ∧
    saveMessagesOld [['h', 'i']] = some ['h', 'i'] := by
  refine ⟨rfl, rfl, by decide⟩

/-! ## Environment-variable conversion (internal/config/config.go)

`conv` tries the parser matching the declared target kind and, when no
parse succeeds, calls `errors.WrapFatalWithContext(err, …)`.  The outer
`var err error` is never assigned — every parse result is bound with `:=`
inside its own `if`, shadowing it — so the wrapped error is always nil, and
`newGeneric` (errors/errors.go) panics on a nil error before anything is
logged.  `ErrParseEnv` is declared in config.go but never referenced. -/

/-- `strconv.ParseBool`: exactly these twelve literals parse. -/
def parseBool (s : String) : Option Bool :=
  match s with
  | "1" | "t" | "T" | "true" | "TRUE" | "True" => some true
  | "0" | "f" | "F" | "false" | "FALSE" | "False" => some false
  | _ => none

/-- Decimal digit accumulator. -/
def digitsVal (ds : List Char) : Nat :=
  ds.foldl (fun a c => a * 10 + (c.toNat - ('0').toNat)) 0

/-- `strconv.Atoi` / `strconv.ParseInt(v, 10, 64)`: optional sign, a
nonempty run of decimal digits, and a 64-bit range check. -/
def parseInt64 (s : String) : Option Int :=
  let (sign, digits) : Int × List Char :=
    match s.toList with
    | '+' :: rest => (1, rest)
    | '-' :: rest => (-1, rest)
    | l => (1, l)
  if digits.isEmpty then none
  else if digits.all Char.isDigit then
    let iv : Int := sign * (digitsVal digits : Int)
    if -(2 ^ 63) ≤ iv ∧ iv ≤ 2 ^ 63 - 1 then some iv else none
  else none

/-- The exponent suffix of a decimal float literal. -/
def parseExpSuffix (base : Rat) (l : List Char) : Option Rat :=
  let (esign, edigits) : Int × List Char :=
    match l with
    | '+' :: rest => (1, rest)
    | '-' :: rest => (-1, rest)
    | r => (1, r)
  if edigits.isEmpty then none
  else if edigits.all Char.isDigit then
    if esign = 1 then some (base * (10 : Rat) ^ (digitsVal edigits))
    else some (base / (10 : Rat) ^ (digitsVal edigits))
  else none

/-- `strconv.ParseFloat(v, 32)` restricted to decimal literals
(`[sign] digits [. digits] [e/E [sign] digits]`); the special forms
(`inf`, `nan`, hex floats) and float32 rounding are not modelled — no
claim depends on this branch's accepted set or value. -/
def parseFloat32 (s : String) : Option Rat :=
  let (sign, l) : Rat × List Char :=
    match s.toList with
    | '+' :: rest => (1, rest)
    | '-' :: rest => (-1, rest)
    | l => (1, l)
  let intPart := l.takeWhile Char.isDigit
  let rest1 := l.dropWhile Char.isDigit
  match rest1 with
  | [] => if intPart.isEmpty then none else some (sign * (digitsVal intPart : Rat))
  | '.' :: r2 =>
    let fracPart := r2.takeWhile Char.isDigit
    let rest2 := r2.dropWhile Char.isDigit
    if intPart.isEmpty && fracPart.isEmpty then none
    else
      let base : Rat := sign * ((digitsVal intPart : Rat) +
        (digitsVal fracPart : Rat) / (10 : Rat) ^ fracPart.length)
      match rest2 with
      | [] => some base
      | 'e' :: r3 => parseExpSuffix base r3
      | 'E' :: r3 => parseExpSuffix base r3
      | _ => none
  | 'e' :: r3 =>
    if intPart.isEmpty then none
    else parseExpSuffix (sign * (digitsVal intPart : Rat)) r3
  | 'E' :: r3 =>
    if intPart.isEmpty then none
    else parseExpSuffix (sign * (digitsVal intPart : Rat)) r3
  | _ => none

/-- The `reflect.Kind` values `conv` distinguishes. -/
inductive GoKind where
  | string
  | bool
  | int
  | int64
  | float32
deriving DecidableEq

/-- The value `conv` returns on success. -/
inductive ConfigValue where
  | str (s : String)
  | boolean (b : Bool)
  | int (i : Int)
  | int64 (i : Int)
  | float32 (q : Rat)
deriving DecidableEq

/-- The error identities relevant to the configuration claims. -/
inductive ErrId where
  | errParseEnv
deriving DecidableEq

/-- What `errors.WrapFatalWithContext` does: `newGeneric` panics
(`"errors.wrap called with a nil err"`) when handed a nil error, and only
otherwise wraps the error and terminates through `log.Fatal`. -/
inductive WrapOutcome where
  | panicNilErr
  | fatalLogged (e : ErrId)
deriving DecidableEq

def wrapFatalWithContext (err : Option ErrId) : WrapOutcome :=
  match err with
  | none => .panicNilErr
  | some e => .fatalLogged e

/-- How a `conv` call ends. -/
inductive ConvResult where
  | ok (v : ConfigValue)
  | fatal (w : WrapOutcome)
deriving DecidableEq

/-- `conv(v, to)`: try the parser for the declared kind, return on
success; otherwise fall through to `WrapFatalWithContext(err, …)` where
`err` is the outer (shadowed, still nil) error variable. -/
def conv (v : String) (toKind : GoKind) : ConvResult :=
  if toKind = GoKind.string then ConvResult.ok (ConfigValue.str v)
  else if toKind = GoKind.bool then
    match parseBool v with
    | some b => ConvResult.ok (ConfigValue.boolean b)
    | none => ConvResult.fatal (wrapFatalWithContext none)
  else if toKind = GoKind.int then
    match parseInt64 v with
    | some i => ConvResult.ok (ConfigValue.int i)
    | none => ConvResult.fatal (wrapFatalWithContext none)
  else if toKind = GoKind.int64 then
    match parseInt64 v with
    | some i => ConvResult.ok (ConfigValue.int64 i)
    | none => ConvResult.fatal (wrapFatalWithContext none)
  else
    match parseFloat32 v with
    | some q => ConvResult.ok (ConfigValue.float32 q)
    | none => ConvResult.fatal (wrapFatalWithContext none)

/-- C8 (Configuration parse failure), evaluated at failing inputs: a
present-but-unparsable environment variable makes `conv` die through the
nil-error panic of `newGeneric` — not through a fatal wrap of
`ErrParseEnv`, which is declared but never used.  (`DB_MIGRATE=notabool`
and `DB_VERSION=12.5` are concrete failing inputs.) -/
theorem C8_config_parse_failure :
    conv "notabool" GoKind.bool = ConvResult.fatal WrapOutcome.panicNilErr ∧
    conv "12.5" GoKind.int = ConvResult.fatal WrapOutcome.panicNilErr ∧
    WrapOutcome.panicNilErr ≠ WrapOutcome.fatalLogged ErrId.errParseEnv ∧
    conv "true" GoKind.bool = ConvResult.ok (ConfigValue.boolean true) := by
  refine ⟨by decide, by decide, by decide, by decide⟩
